import Mathlib

/- Verification of the pin-annotation PDF tool: a shallow embedding of the
coordinate-transform, path-simplification, stroke-overlap/merge and undo
logic of the TypeScript source (`src/utils/pdfUtils.ts`,
`src/contexts/PDFContext.tsx`, `src/components/DialogModel.tsx`).

Conventions of the embedding:

* All numbers are exact rationals (`ℚ`).
* Euclidean distances occur in the source only through `Math.sqrt` /
  `Math.hypot`, and every such distance is only ever *compared* (to another
  distance or to a nonnegative threshold), never added or otherwise consumed.
  We therefore represent each distance by its SQUARE, an exact rational:
  a distance-to-distance comparison `sqrt a < sqrt b` is mirrored as `a < b`,
  and a distance-to-threshold comparison `sqrt a ≤ t` (with `0 ≤ t`) as
  `a ≤ t^2`.  Consequently every tolerance/threshold parameter of the
  simplifier below is the SQUARE of the tolerance of the source; the claims
  quantify over nonnegative tolerances `t`, which corresponds exactly to
  quantifying over nonnegative squared tolerances.
* The recursion of `douglasPeucker` is expressed with an explicit fuel
  (structural on `fuel`); the export wrapper `simplifyPath` passes
  `points.length` as fuel, which is never exhausted because every recursive
  call strictly decreases the length of the processed list (for nonnegative
  tolerances; for a negative tolerance and a degenerate point list the
  JavaScript recursion itself does not terminate).
-/

/-- `Math.max` on rationals, written out so that it evaluates by kernel
reduction (Mathlib's lattice `max` on `ℚ` does not). -/
def ratMax (a b : ℚ) : ℚ := if a ≤ b then b else a

/-- `Math.min` on rationals, written out so that it evaluates by kernel
reduction. -/
def ratMin (a b : ℚ) : ℚ := if a ≤ b then a else b

/-- A planar point with exact rational coordinates; models the TS objects
with fields `x` and `y` (`p.1` is `x`, `p.2` is `y`). -/
abbrev Point : Type := ℚ × ℚ

/-- Default point used for the (unreachable) out-of-bounds list accesses. -/
def ptZero : Point := (0, 0)

/-- `pdfUtils.ts` 117-145, `getRotatedCoordinates`: maps percentage
coordinates `(px, py)` on a `width × height` page with the given `/Rotate`
value to absolute PDF points.  The final `else` branch is the 0° mapping and
also catches every rotation other than 90/180/270. -/
def getRotatedCoordinates (px py width height : ℚ) (rotation : ℤ) : ℚ × ℚ :=
  if rotation = 90 then
    (py / 100 * width, px / 100 * height)
  else if rotation = 180 then
    (width - px / 100 * width, py / 100 * height)
  else if rotation = 270 then
    (width - py / 100 * width, height - px / 100 * height)
  else
    (px / 100 * width, height - py / 100 * height)

/-- `pdfUtils.ts` 9-10: pin icon viewbox size. -/
def PIN_WIDTH : ℚ := 24

/-- `pdfUtils.ts` 10: pin icon viewbox size. -/
def PIN_HEIGHT : ℚ := 24

/-- `pdfUtils.ts` 409-450 (`downloadPDFWithPins`, per-pin block): the `(x, y)`
position handed to `page.drawSvgPath` for a pin at percentages `(px, py)`.
Mirrors the nested `rotation !== 0` / `rotation === 90/180/270` branches,
including the `+ 12` adjustments of the 270° branch and the icon-centering
adjustment of the `rotation === 0` branch. -/
def pinExportPosition (px py width height : ℚ) (rotation : ℤ) (scale : ℚ) : ℚ × ℚ :=
  if rotation ≠ 0 then
    if rotation = 90 then
      (py / 100 * width, px / 100 * height)
    else if rotation = 180 then
      (width - px / 100 * width, py / 100 * height)
    else if rotation = 270 then
      (width - py / 100 * width + 12, height - px / 100 * height + 12)
    else
      (px / 100 * width, height - py / 100 * height)
  else
    let x := px / 100 * width
    let y := height - py / 100 * height
    let pinScale := 0.8 * scale
    let scaledPinWidth := PIN_WIDTH * pinScale / 2
    let scaledPinHeight := PIN_HEIGHT * pinScale / 2
    (x - scaledPinWidth - 2.5, y + scaledPinHeight + 5)

/-- An axis-aligned rectangle as handed to `page.drawRectangle`. -/
structure DrawRect where
  x : ℚ
  y : ℚ
  w : ℚ
  h : ℚ
deriving DecidableEq

/-- `pdfUtils.ts` 44-86 (`downloadPDFWithHighlights`, per-highlight block):
the rectangle passed to `page.drawRectangle` for a highlight stored as
percentages `(hx, hy, hw, hh)` on a `width × height` page. -/
def highlightRect (hx hy hw hh width height : ℚ) (rotation : ℤ) : DrawRect :=
  let baseX := hx / 100
  let baseY := hy / 100
  let baseW := hw / 100
  let baseH := hh / 100
  if rotation = 90 then
    ⟨baseY * width, baseX * height, baseH * width, baseW * height⟩
  else if rotation = 180 then
    ⟨width - baseX * width - baseW * width, baseY * height,
     baseW * width, baseH * height⟩
  else if rotation = 270 ∨ rotation = -90 then
    ⟨width - baseY * width - baseH * width, height - baseX * height - baseW * height,
     baseH * width, baseW * height⟩
  else
    ⟨baseX * width, height - baseY * height - baseH * height,
     baseW * width, baseH * height⟩

/-- `pdfUtils.ts` 898-926, `perpendicularDistance`: SQUARED distance from
`point` to the segment from `s` to `e` (the source returns the square root
of this value; `start`/`end` are renamed `s`/`e` since `end` is a Lean
keyword).  The projection parameter is clamped through the three-way `if`,
and a degenerate segment falls back to the squared point distance. -/
def perpendicularDistance (point s e : Point) : ℚ :=
  let A := point.1 - s.1
  let B := point.2 - s.2
  let C := e.1 - s.1
  let D := e.2 - s.2
  let dot := A * C + B * D
  let lenSq := C * C + D * D
  if lenSq = 0 then A * A + B * B
  else
    let param := dot / lenSq
    let xx := if param < 0 then s.1 else if param > 1 then e.1 else s.1 + param * C
    let yy := if param < 0 then s.2 else if param > 1 then e.2 else s.2 + param * D
    (point.1 - xx) * (point.1 - xx) + (point.2 - yy) * (point.2 - yy)

/-- One step of the maximum-distance scan of `douglasPeucker`
(`pdfUtils.ts` 940-946): update the running `(maxDistance, maxIndex)` pair
with index `i` whose (squared) distance is `f i`. -/
def maxScanStep (f : ℕ → ℚ) (acc : ℚ × ℕ) (i : ℕ) : ℚ × ℕ :=
  if f i > acc.1 then (f i, i) else acc

/-- The squared distance of the `i`-th point to the chord connecting the
first and last point (`perpendicularDistance(points[i], start, end)` in the
loop body of `douglasPeucker`). -/
def chordDist (points : List Point) (i : ℕ) : ℚ :=
  perpendicularDistance (points.getD i ptZero) (points.headD ptZero)
    (points.getLastD ptZero)

/-- The `for (let i = 1; i < points.length - 1; i++)` loop of
`douglasPeucker` (`pdfUtils.ts` 935-946): running maximum of the squared
perpendicular distances of the interior points to the chord, together with
the first index attaining it; `(0, 0)` when no interior point exceeds 0. -/
def maxPerpScan (points : List Point) : ℚ × ℕ :=
  (List.range' 1 (points.length - 2)).foldl (maxScanStep (chordDist points)) (0, 0)

/-- `pdfUtils.ts` 932-955, the inner `douglasPeucker`: recursive
Douglas-Peucker with an explicit structural fuel (see the header comment);
`epsilon` is the SQUARED tolerance.  `slice(0, maxIndex + 1)` is
`take (maxIndex + 1)`, `slice(maxIndex)` is `drop maxIndex`, and
`leftSegment.slice(0, -1)` is `dropLast`. -/
def douglasPeucker : ℕ → List Point → ℚ → List Point
  | 0, points, _ => points
  | fuel + 1, points, epsilon =>
    if points.length ≤ 2 then points
    else
      let scan := maxPerpScan points
      if scan.1 > epsilon then
        (douglasPeucker fuel (points.take (scan.2 + 1)) epsilon).dropLast
          ++ douglasPeucker fuel (points.drop scan.2) epsilon
      else
        [points.headD ptZero, points.getLastD ptZero]

/-- `pdfUtils.ts` 929-958, `simplifyPath`: outer wrapper of the
Douglas-Peucker simplifier; `tolerance` is the SQUARED tolerance of the
source (the source's call sites use tolerance 1, whose square is again 1). -/
def simplifyPath (points : List Point) (tolerance : ℚ) : List Point :=
  if points.length ≤ 2 then points
  else douglasPeucker points.length points tolerance

/-- The consecutive point pairs ("retained segments") of a polyline. -/
def segPairs (l : List Point) : List (Point × Point) := l.zip l.tail

/-- A stroke as stored in the context (`PDFContext.tsx` 15-24). -/
structure Stroke where
  id : String
  pageNumber : ℤ
  points : List Point
  color : String
  width : ℚ
  createdAt : ℕ
  isDraft : Bool
deriving DecidableEq

/-- Bounding box as computed by `getBBox` inside
`checkStrokeOverlapAndConfirm` (`pdfUtils.ts` 975-984). -/
structure BBox where
  minX : ℚ
  minY : ℚ
  maxX : ℚ
  maxY : ℚ
deriving DecidableEq

/-- `pdfUtils.ts` 975-984, `getBBox`: coordinatewise min/max of a point
list.  The source starts the folds at `±Infinity`; for the nonempty lists it
is applied to this equals folding from the first coordinate. -/
def getBBox (pts : List Point) : BBox :=
  let xs := pts.map Prod.fst
  let ys := pts.map Prod.snd
  ⟨xs.foldl ratMin (xs.headD 0), ys.foldl ratMin (ys.headD 0),
   xs.foldl ratMax (xs.headD 0), ys.foldl ratMax (ys.headD 0)⟩

/-- `pdfUtils.ts` 986-995, `pointSegmentDistance`: SQUARED distance from
`(px, py)` to the segment `(x1, y1)-(x2, y2)`, with the projection parameter
clamped to `[0, 1]` and the degenerate-segment fallback. -/
def pointSegmentDistance (px py x1 y1 x2 y2 : ℚ) : ℚ :=
  let dx := x2 - x1
  let dy := y2 - y1
  if dx = 0 ∧ dy = 0 then (px - x1) * (px - x1) + (py - y1) * (py - y1)
  else
    let t := ((px - x1) * dx + (py - y1) * dy) / (dx * dx + dy * dy)
    let clamped := ratMax 0 (ratMin 1 t)
    let cx := x1 + clamped * dx
    let cy := y1 + clamped * dy
    (px - cx) * (px - cx) + (py - cy) * (py - cy)

/-- Squared Euclidean distance of two points (`Math.hypot(ax-bx, ay-by)`
squared). -/
def hypotSq (p q : Point) : ℚ :=
  (p.1 - q.1) * (p.1 - q.1) + (p.2 - q.2) * (p.2 - q.2)

/-- The per-segment-pair candidate distances of `polylineMinDistance`
(`pdfUtils.ts` 999-1011): for each segment pair, the minimum of the four
endpoint-to-segment squared distances `d1..d4`. -/
def segDistances (a b : List Point) : List ℚ :=
  (a.zip a.tail).flatMap fun s1 =>
    (b.zip b.tail).map fun s2 =>
      ratMin (ratMin (pointSegmentDistance s1.1.1 s1.1.2 s2.1.1 s2.1.2 s2.2.1 s2.2.2)
               (pointSegmentDistance s1.2.1 s1.2.2 s2.1.1 s2.1.2 s2.2.1 s2.2.2))
          (ratMin (pointSegmentDistance s2.1.1 s2.1.2 s1.1.1 s1.1.2 s1.2.1 s1.2.2)
               (pointSegmentDistance s2.2.1 s2.2.2 s1.1.1 s1.1.2 s1.2.1 s1.2.2))

/-- `pdfUtils.ts` 997-1021, `polylineMinDistance`: minimum squared distance
between two polylines; `none` models the `Infinity` the source keeps when
both fallback loops found no pair.  The `minD === 0` early return of the
source is just a shortcut for the same minimum.  If no segment pair exists
(`!Number.isFinite(minD)`), fall back to pairwise point distances. -/
def listMinQ : List ℚ → Option ℚ
  | [] => none
  | x :: xs => some (xs.foldl ratMin x)

def polylineMinDistance (a b : List Point) : Option ℚ :=
  match listMinQ (segDistances a b) with
  | some d => some d
  | none => listMinQ ((a.map fun p1 => b.map fun p2 => hypotSq p1 p2).flatten)

/-- The body of the `for (const existing of samePageStrokes)` loop of
`checkStrokeOverlapAndConfirm` (`pdfUtils.ts` 1026-1040): an existing stroke
is collected iff its bounding box is not separated from the candidate's by
more than the threshold (broad phase) and the minimum polyline distance is
within the threshold.  `dist ≤ threshold` is mirrored as `d ≤ threshold²`
on squared distances (the threshold is clamped nonnegative before use). -/
def strokeOverlapHit (strokeBox : BBox) (strokePoints : List Point) (threshold : ℚ)
    (existing : Stroke) : Bool :=
  let box := getBBox existing.points
  if strokeBox.maxX + threshold < box.minX ∨ box.maxX + threshold < strokeBox.minX ∨
      strokeBox.maxY + threshold < box.minY ∨ box.maxY + threshold < strokeBox.minY then
    false
  else
    match polylineMinDistance strokePoints existing.points with
    | some d => decide (d ≤ threshold * threshold)
    | none => false

/-- `pdfUtils.ts` 962-1049, `checkStrokeOverlapAndConfirm`: the list
`overlappingStrokes` of existing strokes the candidate stroke overlaps
within the threshold.  The source then asks `window.confirm` once and tags
every entry with the same answer; that user decision is outside the
embedding, so the function returns the overlap list itself (empty iff the
source reports no overlap). -/
def checkStrokeOverlapAndConfirm (strokePage : ℤ) (strokePoints : List Point)
    (existingStrokes : List Stroke) (overlapThreshold : ℚ) : List Stroke :=
  if strokePoints.isEmpty then []
  else
    let threshold := ratMax 0 overlapThreshold
    let samePageStrokes := existingStrokes.filter fun s =>
      s.pageNumber == strokePage && !s.isDraft && !s.points.isEmpty
    samePageStrokes.filter (strokeOverlapHit (getBBox strokePoints) strokePoints threshold)

/-- One iteration of the merge loop of `pointerUp`
(`DialogModel.tsx` 404-426): append the next simplified point list to the
accumulator, inserting a `{x: null, y: null}` pen-lift marker (here `none`)
when the gap between the last accumulated point and the first new point
exceeds `connectThreshold = 1` (squared: `> 1`); a missing endpoint means
`dist = Infinity`, hence a marker. -/
def mergeStep (merged : List (Option Point)) (pts : List Point) : List (Option Point) :=
  if merged.isEmpty then pts.map some
  else
    let lastPoint := (merged.reverse.find? Option.isSome).join
    let firstPoint := pts.head?
    match lastPoint, firstPoint with
    | some lp, some fp =>
        if hypotSq lp fp > 1 then merged ++ [none] ++ pts.map some
        else merged ++ pts.map some
    | _, _ => merged ++ [none] ++ pts.map some

/-- `DialogModel.tsx` 393-426: the merged point list of a confirmed merge.
The input is the list `[mainStroke.points, ...otherStrokes, currentPoints]`
in merge order; each entry is first simplified with tolerance 1
(`simplifyPath(points, 1)`; squared tolerance again 1) and the results are
folded with the gap logic. -/
def mergeConfirmed (strokesToMerge : List (List Point)) : List (Option Point) :=
  (strokesToMerge.map fun ps => simplifyPath ps 1).foldl mergeStep []

/-- A pin as stored in the context (`PDFContext.tsx` 4-13). -/
structure Pin where
  id : String
  pageNumber : ℤ
  x : ℚ
  y : ℚ
  color : String
  title : String
  detail : String
  createdAt : ℕ
deriving DecidableEq

/-- A highlight as stored in the context (`PDFContext.tsx` 26-36). -/
structure Highlight where
  id : String
  pageNumber : ℤ
  x : ℚ
  y : ℚ
  width : ℚ
  height : ℚ
  color : String
  note : Option String
  createdAt : ℕ
deriving DecidableEq

/-- The annotation portion of the context state (`PDFContext.tsx` 74-76). -/
structure AppState where
  pins : List Pin
  highlights : List Highlight
  strokes : List Stroke
deriving DecidableEq

/-- The list update of `undoLastStroke` (`PDFContext.tsx` 167-176).  The
source scans indices from the end and splices out the first hit;
equivalently: keep the head whenever some later stroke matches, and
otherwise the head itself is the only remaining candidate. -/
def undoLastStrokeList : List Stroke → ℤ → List Stroke
  | [], _ => []
  | s :: rest, page =>
    if rest.any fun s2 => s2.pageNumber == page then s :: undoLastStrokeList rest page
    else if s.pageNumber == page then rest
    else s :: rest

/-- `PDFContext.tsx` 167-176, `undoLastStroke`: the handler calls only
`setStrokes`, so the pin and highlight state is carried over unchanged. -/
def undoLastStroke (st : AppState) (page : ℤ) : AppState :=
  { st with strokes := undoLastStrokeList st.strokes page }

/-! Theorems. -/

/-- C1: for in-range percentages on a positive page box and each contract
rotation, `getRotatedCoordinates` returns exactly the spec's four-case
mapping, and in particular maps `(50, 50)` on a `600 × 800` page at
rotation 0 to `(300, 400)`. -/
theorem C1_transform_four_cases (px py W H : ℚ)
    (hpx0 : 0 ≤ px) (hpx1 : px ≤ 100) (hpy0 : 0 ≤ py) (hpy1 : py ≤ 100)
    (hW : 0 < W) (hH : 0 < H) :
    getRotatedCoordinates px py W H 0 = (px / 100 * W, H - py / 100 * H)
    ∧ getRotatedCoordinates px py W H 90 = (py / 100 * W, px / 100 * H)
    ∧ getRotatedCoordinates px py W H 180 = (W - px / 100 * W, py / 100 * H)
    ∧ getRotatedCoordinates px py W H 270 = (W - py / 100 * W, H - px / 100 * H)
    ∧ getRotatedCoordinates 50 50 600 800 0 = (300, 400) := by
  refine ⟨?_, ?_, ?_, ?_, ?_⟩ <;> norm_num [getRotatedCoordinates]

/-- Witness for C1 at `px = py = 50`, `W = 600`, `H = 800`. -/
theorem C1_transform_four_cases_witness :
    getRotatedCoordinates 50 50 600 800 0 = (300, 400) :=
  (C1_transform_four_cases 50 50 600 800 (by norm_num) (by norm_num) (by norm_num)
    (by norm_num) (by norm_num) (by norm_num)).2.2.2.2

/-- C2 fails on the code: at rotation 0 (the spec scenario's page) the pin
export applies an icon-centering offset, so the drawn position differs from
the shared transform. -/
theorem C2_pin_export_offset_counterexample :
    pinExportPosition 50 50 600 800 0 1 ≠ getRotatedCoordinates 50 50 600 800 0 := by
  norm_num [pinExportPosition, getRotatedCoordinates, PIN_WIDTH, PIN_HEIGHT]

/-- C2 amended: the pin export equals the shared transform only for
rotations 90 and 180.  For rotation 270 it adds `+12` to both coordinates,
and for rotation 0 it shifts by the scaled half pin size plus constants:
`x - (24·0.8·scale)/2 - 2.5` and `y + (24·0.8·scale)/2 + 5`. -/
theorem C2_pin_export_vs_transform (px py W H scale : ℚ) :
    pinExportPosition px py W H 90 scale = getRotatedCoordinates px py W H 90
    ∧ pinExportPosition px py W H 180 scale = getRotatedCoordinates px py W H 180
    ∧ pinExportPosition px py W H 270 scale
        = ((getRotatedCoordinates px py W H 270).1 + 12,
           (getRotatedCoordinates px py W H 270).2 + 12)
    ∧ pinExportPosition px py W H 0 scale
        = ((getRotatedCoordinates px py W H 0).1 - PIN_WIDTH * (0.8 * scale) / 2 - 2.5,
           (getRotatedCoordinates px py W H 0).2 + PIN_HEIGHT * (0.8 * scale) / 2 + 5) := by
  refine ⟨?_, ?_, ?_, ?_⟩ <;> norm_num [pinExportPosition, getRotatedCoordinates]

/-- C3 fails on the code: the spec scenario expects `(400, 300)`, but the
transform (consistently with the spec's own 90° formula) yields `(300, 400)`. -/
theorem C3_rotation90_scenario_counterexample :
    getRotatedCoordinates 50 50 600 800 90 ≠ ((400 : ℚ), (300 : ℚ)) := by
  norm_num [getRotatedCoordinates]

/-- C3 amended: transforming `(50, 50)` on a `600 × 800` page at rotation 90
yields `(300, 400)`. -/
theorem C3_rotation90_scenario :
    getRotatedCoordinates 50 50 600 800 90 = (300, 400) := by
  norm_num [getRotatedCoordinates]

/-- C5: a rotation outside the contract set falls through to the 0° mapping,
and for in-range percentages the result stays inside the page box. -/
theorem C5_invalid_rotation_fallback (r : ℤ)
    (hr : r ≠ 0 ∧ r ≠ 90 ∧ r ≠ 180 ∧ r ≠ 270)
    (px py W H : ℚ)
    (hpx0 : 0 ≤ px) (hpx1 : px ≤ 100) (hpy0 : 0 ≤ py) (hpy1 : py ≤ 100)
    (hW : 0 < W) (hH : 0 < H) :
    getRotatedCoordinates px py W H r = (px / 100 * W, H - py / 100 * H)
    ∧ 0 ≤ (getRotatedCoordinates px py W H r).1
    ∧ (getRotatedCoordinates px py W H r).1 ≤ W
    ∧ 0 ≤ (getRotatedCoordinates px py W H r).2
    ∧ (getRotatedCoordinates px py W H r).2 ≤ H := by
  obtain ⟨h0, h90, h180, h270⟩ := hr
  have hx0 : 0 ≤ px / 100 * W := by positivity
  have hxW : px / 100 * W ≤ W := by nlinarith
  have hy0 : 0 ≤ py / 100 * H := by positivity
  have hyH : py / 100 * H ≤ H := by nlinarith
  have heq : getRotatedCoordinates px py W H r = (px / 100 * W, H - py / 100 * H) := by
    simp [getRotatedCoordinates, h90, h180, h270]
  rw [heq]
  refine ⟨rfl, hx0, hxW, by simpa using hyH, by simpa using hy0⟩

/-- Witness for C5 at rotation 45 and the scenario point. -/
theorem C5_invalid_rotation_fallback_witness :
    getRotatedCoordinates 50 50 600 800 45 = ((50 : ℚ) / 100 * 600, 800 - 50 / 100 * 800) :=
  (C5_invalid_rotation_fallback 45 (by decide) 50 50 600 800 (by norm_num) (by norm_num)
    (by norm_num) (by norm_num) (by norm_num) (by norm_num)).1

/-- C9: for a highlight with nonnegative percentage size on a positive page
box, the rectangle passed to the drawing call has nonnegative width and
height under every rotation the export handles (0, 90, 180, 270, -90). -/
theorem C9_highlight_rect_nonneg (hx hy hw hh W H : ℚ) (r : ℤ)
    (hw0 : 0 ≤ hw) (hh0 : 0 ≤ hh) (hW : 0 < W) (hH : 0 < H)
    (hr : r = 0 ∨ r = 90 ∨ r = 180 ∨ r = 270 ∨ r = -90) :
    0 ≤ (highlightRect hx hy hw hh W H r).w ∧ 0 ≤ (highlightRect hx hy hw hh W H r).h := by
  have hbW : 0 ≤ hw / 100 := by positivity
  have hbH : 0 ≤ hh / 100 := by positivity
  rcases hr with h | h | h | h | h <;> subst h <;>
    constructor <;>
    simp [highlightRect] <;>
    positivity

/-- Witness for C9 at a concrete highlight and rotation 90. -/
theorem C9_highlight_rect_nonneg_witness :
    0 ≤ (highlightRect 10 20 30 40 600 800 90).w ∧
      0 ≤ (highlightRect 10 20 30 40 600 800 90).h :=
  C9_highlight_rect_nonneg 10 20 30 40 600 800 90 (by norm_num) (by norm_num)
    (by norm_num) (by norm_num) (Or.inr (Or.inl rfl))

/-- A hit at a threshold stays a hit at any larger threshold: the broad-phase
separation test only weakens and the recorded minimum distance is
threshold-independent. -/
theorem strokeOverlapHit_mono (strokeBox : BBox) (pts : List Point) (t t' : ℚ)
    (s : Stroke) (h0 : 0 ≤ t) (htt : t ≤ t')
    (h : strokeOverlapHit strokeBox pts t s = true) :
    strokeOverlapHit strokeBox pts t' s = true := by
  unfold strokeOverlapHit at h ⊢
  by_cases hsep : strokeBox.maxX + t < (getBBox s.points).minX ∨
      (getBBox s.points).maxX + t < strokeBox.minX ∨
      strokeBox.maxY + t < (getBBox s.points).minY ∨
      (getBBox s.points).maxY + t < strokeBox.minY
  · rw [if_pos hsep] at h
    exact absurd h (by simp)
  · have hsep' : ¬(strokeBox.maxX + t' < (getBBox s.points).minX ∨
        (getBBox s.points).maxX + t' < strokeBox.minX ∨
        strokeBox.maxY + t' < (getBBox s.points).minY ∨
        (getBBox s.points).maxY + t' < strokeBox.minY) := by
      push_neg at hsep ⊢
      obtain ⟨h1, h2, h3, h4⟩ := hsep
      exact ⟨by linarith, by linarith, by linarith, by linarith⟩
    rw [if_neg hsep] at h
    rw [if_neg hsep']
    cases hpd : polylineMinDistance pts s.points with
    | none => rw [hpd] at h; exact absurd h (by simp)
    | some d =>
      rw [hpd] at h
      have hd : d ≤ t * t := by simpa using h
      have : d ≤ t' * t' := by nlinarith
      simpa using this

/-- C6: if the overlap check reports no overlapping stroke at threshold
`t1`, it also reports none at any smaller threshold `t2`; equivalently the
overlap set is monotone in the threshold. -/
theorem C6_overlap_threshold_monotone (page : ℤ) (pts : List Point)
    (existing : List Stroke) (t1 t2 : ℚ) (hlt : t2 < t1)
    (h1 : checkStrokeOverlapAndConfirm page pts existing t1 = []) :
    checkStrokeOverlapAndConfirm page pts existing t2 = [] := by
  unfold checkStrokeOverlapAndConfirm at h1 ⊢
  by_cases hempty : pts.isEmpty
  · simp [hempty]
  · rw [if_neg (by simpa using hempty)] at h1 ⊢
    rw [List.filter_eq_nil_iff] at h1 ⊢
    intro s hs hhit
    exact h1 s hs
      (strokeOverlapHit_mono (getBBox pts) pts (max 0 t2) (max 0 t1) s
        (le_max_left 0 t2) (max_le_max le_rfl hlt.le) hhit)

/-- Witness for C6: a candidate segment far away from the single existing
stroke reports no overlap at threshold 5, hence none at threshold 1. -/
theorem C6_overlap_threshold_monotone_witness :
    checkStrokeOverlapAndConfirm 1 [(0, 0), (1, 0)]
        [⟨"a", 1, [(10, 10), (11, 10)], "#000000", 2, 0, false⟩] 1 = [] :=
  C6_overlap_threshold_monotone 1 [(0, 0), (1, 0)]
    [⟨"a", 1, [(10, 10), (11, 10)], "#000000", 2, 0, false⟩] 5 1 (by norm_num)
    (by with_unfolding_all decide)

/-- When no stroke of the list lies on the page, the backward scan of
`undoLastStroke` finds nothing and returns the list unchanged. -/
theorem undoLastStrokeList_no_match (l : List Stroke) (p : ℤ)
    (h : ∀ s ∈ l, s.pageNumber ≠ p) : undoLastStrokeList l p = l := by
  induction l with
  | nil => rfl
  | cons s rest ih =>
    have hs : s.pageNumber ≠ p := h s (List.mem_cons_self s rest)
    have hany : (rest.any fun s2 => s2.pageNumber == p) = false := by
      rw [List.any_eq_false]
      intro x hx
      simpa using h x (List.mem_cons_of_mem s hx)
    simp [undoLastStrokeList, hany, hs]

/-- When some stroke of the list lies on the page, `undoLastStroke` removes
exactly the last such stroke and keeps everything else in order. -/
theorem undoLastStrokeList_match (l : List Stroke) (p : ℤ)
    (h : ∃ s ∈ l, s.pageNumber = p) :
    ∃ l1 s l2, l = l1 ++ s :: l2 ∧ s.pageNumber = p
      ∧ (∀ s' ∈ l2, s'.pageNumber ≠ p) ∧ undoLastStrokeList l p = l1 ++ l2 := by
  induction l with
  | nil => simp at h
  | cons a rest ih =>
    by_cases hrest : ∃ s ∈ rest, s.pageNumber = p
    · obtain ⟨l1, s, l2, e1, e2, e3, e4⟩ := ih hrest
      have hany : (rest.any fun s2 => s2.pageNumber == p) = true := by
        obtain ⟨x, hx, hxp⟩ := hrest
        exact List.any_eq_true.mpr ⟨x, hx, by simpa using hxp⟩
      refine ⟨a :: l1, s, l2, by simp [e1], e2, e3, ?_⟩
      simp [undoLastStrokeList, hany, e4]
    · have ha : a.pageNumber = p := by
        obtain ⟨s, hs, hsp⟩ := h
        rcases List.mem_cons.mp hs with rfl | hmem
        · exact hsp
        · exact absurd ⟨s, hmem, hsp⟩ hrest
      have hany : (rest.any fun s2 => s2.pageNumber == p) = false := by
        rw [List.any_eq_false]
        intro x hx
        simpa using fun e => hrest ⟨x, hx, e⟩
      exact ⟨[], a, rest, rfl, ha, fun s' hs' e => hrest ⟨s', hs', e⟩,
        by simp [undoLastStrokeList, hany, ha]⟩

/-- C10: `undoLastStroke` never touches pins or highlights; on the stroke
list it removes exactly the most recently added stroke of the given page
(keeping all other strokes in value and order) and is the identity when the
page has no stroke. -/
theorem C10_undo_last_stroke (st : AppState) (p : ℤ) :
    (undoLastStroke st p).pins = st.pins
    ∧ (undoLastStroke st p).highlights = st.highlights
    ∧ ((∀ s ∈ st.strokes, s.pageNumber ≠ p) → (undoLastStroke st p).strokes = st.strokes)
    ∧ ((∃ s ∈ st.strokes, s.pageNumber = p) →
        ∃ l1 s l2, st.strokes = l1 ++ s :: l2 ∧ s.pageNumber = p
          ∧ (∀ s' ∈ l2, s'.pageNumber ≠ p)
          ∧ (undoLastStroke st p).strokes = l1 ++ l2) := by
  refine ⟨rfl, rfl, ?_, ?_⟩
  · intro h
    exact undoLastStrokeList_no_match st.strokes p h
  · intro h
    exact undoLastStrokeList_match st.strokes p h

/-- Witness for C10: applying the theorem to a concrete two-stroke state. -/
theorem C10_undo_last_stroke_witness :
    (undoLastStroke
        ⟨[], [], [⟨"s1", 1, [(0, 0), (1, 1)], "#000000", 2, 0, false⟩,
                  ⟨"s2", 2, [(2, 2), (3, 3)], "#000000", 2, 1, false⟩]⟩ 3).pins = []
    ∧ ((∀ s ∈ [⟨"s1", 1, [(0, 0), (1, 1)], "#000000", 2, 0, false⟩,
          (⟨"s2", 2, [(2, 2), (3, 3)], "#000000", 2, 1, false⟩ : Stroke)],
          Stroke.pageNumber s ≠ 3) →
        (undoLastStroke
          ⟨[], [], [⟨"s1", 1, [(0, 0), (1, 1)], "#000000", 2, 0, false⟩,
                    ⟨"s2", 2, [(2, 2), (3, 3)], "#000000", 2, 1, false⟩]⟩ 3).strokes
          = [⟨"s1", 1, [(0, 0), (1, 1)], "#000000", 2, 0, false⟩,
             ⟨"s2", 2, [(2, 2), (3, 3)], "#000000", 2, 1, false⟩]) :=
  ⟨(C10_undo_last_stroke
      ⟨[], [], [⟨"s1", 1, [(0, 0), (1, 1)], "#000000", 2, 0, false⟩,
                ⟨"s2", 2, [(2, 2), (3, 3)], "#000000", 2, 1, false⟩]⟩ 3).1,
   (C10_undo_last_stroke
      ⟨[], [], [⟨"s1", 1, [(0, 0), (1, 1)], "#000000", 2, 0, false⟩,
                ⟨"s2", 2, [(2, 2), (3, 3)], "#000000", 2, 1, false⟩]⟩ 3).2.2.1⟩

/-- C4 fails on the code: merging a five-point collinear stroke with a
two-point continuation (a confirmed merge of `k = 2` strokes) first
simplifies each stroke, so the merged list has 4 points, below the claimed
lower bound `max(n1, n2) = 5`. -/
theorem C4_merge_lower_bound_counterexample :
    (mergeConfirmed [[((0 : ℚ), (0 : ℚ)), (1, 0), (2, 0), (3, 0), (4, 0)],
        [(4, 0), (5, 0)]]).length
      < Nat.max [((0 : ℚ), (0 : ℚ)), (1, 0), (2, 0), (3, 0), (4, 0)].length
          [((4 : ℚ), (0 : ℚ)), (5, 0)].length := by
  with_unfolding_all decide

/-! Lemmas about the maximum-distance scan fold. -/

theorem foldlScan_fst_le (f : ℕ → ℚ) (l : List ℕ) (acc : ℚ × ℕ) :
    acc.1 ≤ (l.foldl (maxScanStep f) acc).1 := by
  induction l generalizing acc with
  | nil => exact le_refl _
  | cons a l ih =>
    rw [List.foldl_cons]
    refine le_trans ?_ (ih (maxScanStep f acc a))
    unfold maxScanStep
    split
    · next h => exact le_of_lt h
    · exact le_refl _

theorem foldlScan_le_fst (f : ℕ → ℚ) (l : List ℕ) (acc : ℚ × ℕ) :
    ∀ i ∈ l, f i ≤ (l.foldl (maxScanStep f) acc).1 := by
  induction l generalizing acc with
  | nil => intro i hi; cases hi
  | cons a l ih =>
    intro i hi
    rw [List.foldl_cons]
    rcases List.mem_cons.mp hi with rfl | hmem
    · refine le_trans ?_ (foldlScan_fst_le f l (maxScanStep f acc i))
      unfold maxScanStep
      split
      · exact le_refl _
      · next h => exact le_of_not_lt h
    · exact ih (maxScanStep f acc a) i hmem

theorem foldlScan_eq_or (f : ℕ → ℚ) (l : List ℕ) (acc : ℚ × ℕ) :
    l.foldl (maxScanStep f) acc = acc
      ∨ ∃ i ∈ l, l.foldl (maxScanStep f) acc = (f i, i) := by
  induction l generalizing acc with
  | nil => exact Or.inl rfl
  | cons a l ih =>
    rw [List.foldl_cons]
    rcases ih (maxScanStep f acc a) with h | ⟨i, hi, h⟩
    · rw [h]
      unfold maxScanStep
      split
      · exact Or.inr ⟨a, List.mem_cons_self a l, rfl⟩
      · exact Or.inl rfl
    · exact Or.inr ⟨i, List.mem_cons_of_mem a hi, h⟩

theorem foldlScan_no_update (f : ℕ → ℚ) :
    ∀ (l : List ℕ) (acc : ℚ × ℕ), (∀ i ∈ l, f i ≤ acc.1) →
      l.foldl (maxScanStep f) acc = acc := by
  intro l
  induction l with
  | nil => intro acc _; rfl
  | cons a l ih =>
    intro acc h
    rw [List.foldl_cons]
    have ha : maxScanStep f acc a = acc := by
      unfold maxScanStep
      rw [if_neg (not_lt.mpr (h a (List.mem_cons_self a l)))]
    rw [ha]
    exact ih acc (fun i hi => h i (List.mem_cons_of_mem a hi))

theorem foldlScan_lt (f : ℕ → ℚ) (M : ℚ) :
    ∀ (l : List ℕ) (acc : ℚ × ℕ), acc.1 < M → (∀ i ∈ l, f i < M) →
      (l.foldl (maxScanStep f) acc).1 < M := by
  intro l
  induction l with
  | nil => intro acc hacc _; exact hacc
  | cons a l ih =>
    intro acc hacc h
    rw [List.foldl_cons]
    refine ih (maxScanStep f acc a) ?_ (fun i hi => h i (List.mem_cons_of_mem a hi))
    unfold maxScanStep
    split
    · exact h a (List.mem_cons_self a l)
    · exact hacc

theorem foldlScan_decomp (f : ℕ → ℚ) :
    ∀ (l : List ℕ) (acc : ℚ × ℕ),
      l.foldl (maxScanStep f) acc = acc
      ∨ ∃ l1 j l2, l = l1 ++ j :: l2
          ∧ l.foldl (maxScanStep f) acc = (f j, j)
          ∧ (l1.foldl (maxScanStep f) acc).1 < f j
          ∧ ∀ i ∈ l2, f i ≤ f j := by
  intro l
  induction l with
  | nil => intro acc; exact Or.inl rfl
  | cons a l ih =>
    intro acc
    rw [List.foldl_cons]
    rcases ih (maxScanStep f acc a) with h | ⟨l1, j, l2, e1, e2, e3, e4⟩
    · by_cases hfa : f a > acc.1
      · right
        refine ⟨[], a, l, rfl, ?_, by simpa using hfa, ?_⟩
        · rw [h]
          unfold maxScanStep
          rw [if_pos hfa]
        · intro i hi
          have h2 := foldlScan_le_fst f l (maxScanStep f acc a) i hi
          rw [h] at h2
          unfold maxScanStep at h2
          rw [if_pos hfa] at h2
          exact h2
      · left
        rw [h]
        unfold maxScanStep
        rw [if_neg hfa]
    · right
      refine ⟨a :: l1, j, l2, by rw [e1]; rfl, e2, ?_, e4⟩
      rw [List.foldl_cons]
      exact e3

/-- Membership in a step-1 range as an interval. -/
theorem mem_range'_iff {m s n : ℕ} : m ∈ List.range' s n ↔ s ≤ m ∧ m < s + n := by
  rw [List.mem_range']
  constructor
  · rintro ⟨i, hi, rfl⟩
    omega
  · intro h
    exact ⟨m - s, by omega, by omega⟩

/-- Splitting a step-1 range at an element determines the prefix. -/
theorem range'_decomp {a : ℕ} :
    ∀ {l1 : List ℕ} {s n : ℕ} {l2 : List ℕ}, List.range' s n = l1 ++ a :: l2 →
      l1 = List.range' s l1.length ∧ a = s + l1.length := by
  intro l1
  induction l1 with
  | nil =>
    intro s n l2 h
    cases n with
    | zero => simp [List.range'] at h
    | succ n =>
      rw [List.range'_succ] at h
      injection h with h1 _
      subst h1
      exact ⟨rfl, by simp⟩
  | cons b l1 ih =>
    intro s n l2 h
    cases n with
    | zero => simp [List.range'] at h
    | succ n =>
      rw [List.range'_succ] at h
      injection h with h1 h2
      obtain ⟨e1, e2⟩ := ih h2
      subst h1
      constructor
      · rw [List.length_cons, List.range'_succ, ← e1]
      · rw [List.length_cons]
        omega

theorem maxPerpScan_fst_nonneg (pts : List Point) : 0 ≤ (maxPerpScan pts).1 := by
  have h := foldlScan_fst_le (chordDist pts) (List.range' 1 (pts.length - 2)) (0, 0)
  simpa [maxPerpScan] using h

theorem maxPerpScan_ge (pts : List Point) (i : ℕ) (h1 : 1 ≤ i) (h2 : i + 2 ≤ pts.length) :
    chordDist pts i ≤ (maxPerpScan pts).1 := by
  unfold maxPerpScan
  exact foldlScan_le_fst _ _ _ i (mem_range'_iff.mpr ⟨h1, by omega⟩)

theorem maxPerpScan_pos (pts : List Point) (h : 0 < (maxPerpScan pts).1) :
    1 ≤ (maxPerpScan pts).2 ∧ (maxPerpScan pts).2 + 2 ≤ pts.length
      ∧ (maxPerpScan pts).1 = chordDist pts (maxPerpScan pts).2 := by
  unfold maxPerpScan at h ⊢
  rcases foldlScan_eq_or (chordDist pts) (List.range' 1 (pts.length - 2)) (0, 0)
    with he | ⟨i, hi, he⟩
  · rw [he] at h
    exact absurd h (lt_irrefl 0)
  · rw [he]
    obtain ⟨hs, hlt⟩ := mem_range'_iff.mp hi
    exact ⟨hs, by omega, rfl⟩

theorem maxPerpScan_before_lt (pts : List Point) (i : ℕ) (h1 : 1 ≤ i)
    (h2 : i < (maxPerpScan pts).2) :
    chordDist pts i < (maxPerpScan pts).1 := by
  unfold maxPerpScan at h2 ⊢
  rcases foldlScan_decomp (chordDist pts) (List.range' 1 (pts.length - 2)) (0, 0)
    with he | ⟨l1, j, l2, e1, e2, e3, e4⟩
  · rw [he] at h2
    exact absurd h2 (Nat.not_lt_zero i)
  · rw [e2] at h2 ⊢
    obtain ⟨hl1, hj⟩ := range'_decomp e1
    have hi_mem : i ∈ l1 := by
      rw [hl1]
      exact mem_range'_iff.mpr ⟨h1, by omega⟩
    exact lt_of_le_of_lt (foldlScan_le_fst (chordDist pts) l1 (0, 0) i hi_mem) e3

/-- Full characterization of the scan from the distance profile: if `j` is
the first index attaining the maximum, the scan returns `(d j, j)`. -/
theorem maxPerpScan_eq (pts : List Point) (j : ℕ) (h1 : 1 ≤ j) (h2 : j + 2 ≤ pts.length)
    (hpos : 0 < chordDist pts j)
    (hbefore : ∀ i, 1 ≤ i → i < j → chordDist pts i < chordDist pts j)
    (hafter : ∀ i, j ≤ i → i + 2 ≤ pts.length → chordDist pts i ≤ chordDist pts j) :
    maxPerpScan pts = (chordDist pts j, j) := by
  unfold maxPerpScan
  have hsum : ((pts.length - 2) - (j - 1)) + (j - 1) = pts.length - 2 := by omega
  have hj1 : 1 + (j - 1) = j := by omega
  have hlen : (pts.length - 2) - (j - 1) = (pts.length - 2 - j) + 1 := by omega
  have hsplit : List.range' 1 (pts.length - 2)
      = List.range' 1 (j - 1) ++ j :: List.range' (j + 1) (pts.length - 2 - j) := by
    calc List.range' 1 (pts.length - 2)
        = List.range' 1 (j - 1) ++ List.range' (1 + (j - 1)) ((pts.length - 2) - (j - 1)) := by
          rw [List.range'_append_1, hsum]
      _ = List.range' 1 (j - 1) ++ j :: List.range' (j + 1) (pts.length - 2 - j) := by
          rw [hj1, hlen, List.range'_succ]
  rw [hsplit, List.foldl_append, List.foldl_cons]
  have hphase1 : ((List.range' 1 (j - 1)).foldl (maxScanStep (chordDist pts)) (0, 0)).1
      < chordDist pts j := by
    refine foldlScan_lt _ _ _ _ hpos ?_
    intro i hi
    obtain ⟨hi1, hi2⟩ := mem_range'_iff.mp hi
    exact hbefore i hi1 (by omega)
  have hstep : maxScanStep (chordDist pts)
      ((List.range' 1 (j - 1)).foldl (maxScanStep (chordDist pts)) (0, 0)) j
      = (chordDist pts j, j) := by
    simp only [maxScanStep]
    rw [if_pos hphase1]
  rw [hstep]
  refine foldlScan_no_update _ _ _ ?_
  intro i hi
  obtain ⟨hi1, hi2⟩ := mem_range'_iff.mp hi
  exact hafter i (by omega) (by omega)

/-! Lemmas about the squared point-to-segment distance. -/

theorem perpendicularDistance_nonneg (p s e : Point) : 0 ≤ perpendicularDistance p s e := by
  simp only [perpendicularDistance]
  split
  · exact add_nonneg (mul_self_nonneg _) (mul_self_nonneg _)
  · exact add_nonneg (mul_self_nonneg _) (mul_self_nonneg _)

theorem perpendicularDistance_self_left (a b : Point) : perpendicularDistance a a b = 0 := by
  simp only [perpendicularDistance]
  split
  · ring
  · have hd : (a.1 - a.1) * (b.1 - a.1) + (a.2 - a.2) * (b.2 - a.2) = 0 := by ring
    rw [hd, zero_div]
    norm_num

theorem perpendicularDistance_self_right (a b : Point) : perpendicularDistance b a b = 0 := by
  simp only [perpendicularDistance]
  split
  · next h => exact h
  · next h =>
    rw [div_self h]
    norm_num

theorem maxPerpScan_snd_le (pts : List Point) :
    (maxPerpScan pts).2 = 0 ∨ (maxPerpScan pts).2 + 2 ≤ pts.length := by
  unfold maxPerpScan
  rcases foldlScan_eq_or (chordDist pts) (List.range' 1 (pts.length - 2)) (0, 0)
    with he | ⟨i, hi, he⟩
  · rw [he]
    exact Or.inl rfl
  · rw [he]
    obtain ⟨h1, h2⟩ := mem_range'_iff.mp hi
    exact Or.inr (by omega)

/-! Helpers for list element access. -/

theorem headD_eq_getElem (pts : List Point) (h : 0 < pts.length) :
    pts.headD ptZero = pts[0] := by
  cases pts with
  | nil => simp at h
  | cons a t => rfl

theorem getLastD_eq_getElem (pts : List Point) (h : 0 < pts.length) :
    pts.getLastD ptZero = pts[pts.length - 1] := by
  rw [List.getLastD_eq_getLast?, List.getLast?_eq_getElem?,
    List.getElem?_eq_getElem (by omega : pts.length - 1 < pts.length)]
  rfl

theorem chordDist_eq_perp (pts : List Point) (i : ℕ) (h : i < pts.length) :
    chordDist pts i
      = perpendicularDistance pts[i] (pts.headD ptZero) (pts.getLastD ptZero) := by
  simp only [chordDist]
  congr 1
  rw [List.getD_eq_getElem?_getD, List.getElem?_eq_getElem h]
  rfl

theorem head?_take_pos (l : List Point) (k : ℕ) (hk : 0 < k) :
    (l.take k).head? = l.head? := by
  cases l with
  | nil => simp
  | cons a t =>
    cases k with
    | zero => omega
    | succ k => rfl

theorem head?_drop_eq (l : List Point) (m : ℕ) (h : m < l.length) :
    (l.drop m).head? = some l[m] := by
  rw [List.drop_eq_getElem_cons h]
  rfl

theorem getLast?_drop_eq (m : ℕ) :
    ∀ (l : List Point), m < l.length → (l.drop m).getLast? = l.getLast? := by
  induction m with
  | zero => intro l _; rfl
  | succ m ih =>
    intro l h
    cases l with
    | nil => simp at h
    | cons a t =>
      have ht : m < t.length := by simpa using h
      rw [List.drop_succ_cons, ih t ht]
      cases t with
      | nil => simp at ht
      | cons b t' => rw [List.getLast?_cons_cons]

theorem getLast?_take_succ (l : List Point) (m : ℕ) (h : m < l.length) :
    (l.take (m + 1)).getLast? = some l[m] := by
  have e : l.take (m + 1) = l.take m ++ [l[m]] := by
    rw [List.take_succ, List.getElem?_eq_getElem h]
    rfl
  rw [e, List.getLast?_concat]

/-- The squared chord distance of every member of the list is bounded by the
scan maximum (endpoints contribute distance 0). -/
theorem perp_le_scan (pts : List Point) (v : Point) (hv : v ∈ pts) :
    perpendicularDistance v (pts.headD ptZero) (pts.getLastD ptZero)
      ≤ (maxPerpScan pts).1 := by
  obtain ⟨i, hlt, rfl⟩ := List.getElem_of_mem hv
  by_cases h0 : i = 0
  · subst h0
    rw [← headD_eq_getElem pts (by omega), perpendicularDistance_self_left]
    exact maxPerpScan_fst_nonneg pts
  · by_cases hl : i = pts.length - 1
    · subst hl
      rw [← getLastD_eq_getElem pts (by omega), perpendicularDistance_self_right]
      exact maxPerpScan_fst_nonneg pts
    · have hge := maxPerpScan_ge pts i (by omega) (by omega)
      rw [chordDist_eq_perp pts i hlt] at hge
      exact hge

/-! Unfolding equations for `douglasPeucker`. -/

theorem douglasPeucker_base (fuel : ℕ) (pts : List Point) (eps : ℚ) (h : pts.length ≤ 2) :
    douglasPeucker fuel pts eps = pts := by
  cases fuel with
  | zero => rfl
  | succ fuel => simp [douglasPeucker, h]

theorem douglasPeucker_split (fuel : ℕ) (pts : List Point) (eps : ℚ)
    (h3 : ¬ pts.length ≤ 2) (hs : (maxPerpScan pts).1 > eps) :
    douglasPeucker (fuel + 1) pts eps
      = (douglasPeucker fuel (pts.take ((maxPerpScan pts).2 + 1)) eps).dropLast
        ++ douglasPeucker fuel (pts.drop (maxPerpScan pts).2) eps := by
  simp [douglasPeucker, h3, hs]

theorem douglasPeucker_collapse (fuel : ℕ) (pts : List Point) (eps : ℚ)
    (h3 : ¬ pts.length ≤ 2) (hs : ¬ (maxPerpScan pts).1 > eps) :
    douglasPeucker (fuel + 1) pts eps = [pts.headD ptZero, pts.getLastD ptZero] := by
  simp [douglasPeucker, h3, hs]

/-! Length bounds for `douglasPeucker`. -/

theorem douglasPeucker_length_le (fuel : ℕ) :
    ∀ (pts : List Point) (eps : ℚ), (douglasPeucker fuel pts eps).length ≤ pts.length := by
  induction fuel with
  | zero => intro pts eps; exact le_refl _
  | succ fuel ih =>
    intro pts eps
    by_cases h : pts.length ≤ 2
    · rw [douglasPeucker_base _ _ _ h]
    · by_cases hs : (maxPerpScan pts).1 > eps
      · rw [douglasPeucker_split fuel pts eps h hs]
        have hA := ih (pts.take ((maxPerpScan pts).2 + 1)) eps
        have hB := ih (pts.drop (maxPerpScan pts).2) eps
        rw [List.length_take] at hA
        rw [List.length_drop] at hB
        rw [List.length_append, List.length_dropLast]
        omega
      · rw [douglasPeucker_collapse fuel pts eps h hs]
        simp only [List.length_cons, List.length_nil]
        omega

theorem douglasPeucker_two_le_length (fuel : ℕ) :
    ∀ (pts : List Point) (eps : ℚ), 2 ≤ pts.length →
      2 ≤ (douglasPeucker fuel pts eps).length := by
  induction fuel with
  | zero => intro pts eps h; exact h
  | succ fuel ih =>
    intro pts eps h
    by_cases hle : pts.length ≤ 2
    · rw [douglasPeucker_base _ _ _ hle]
      exact h
    · by_cases hs : (maxPerpScan pts).1 > eps
      · rw [douglasPeucker_split fuel pts eps hle hs]
        have hdlen : 2 ≤ (pts.drop (maxPerpScan pts).2).length := by
          rw [List.length_drop]
          rcases maxPerpScan_snd_le pts with h0 | hb
          · omega
          · omega
        have hB := ih (pts.drop (maxPerpScan pts).2) eps hdlen
        rw [List.length_append]
        omega
      · rw [douglasPeucker_collapse fuel pts eps hle hs]
        simp

theorem head?_dropLast_of_two_le (l : List Point) (h : 2 ≤ l.length) :
    l.dropLast.head? = l.head? := by
  rw [List.head?_dropLast, if_pos (by omega)]

/-! The simplifier preserves the first and the last point. -/

theorem douglasPeucker_head? (fuel : ℕ) :
    ∀ (pts : List Point) (eps : ℚ), 0 ≤ eps → pts ≠ [] →
      (douglasPeucker fuel pts eps).head? = pts.head? := by
  induction fuel with
  | zero => intro pts eps _ _; rfl
  | succ fuel ih =>
    intro pts eps heps hne
    by_cases hle : pts.length ≤ 2
    · rw [douglasPeucker_base _ _ _ hle]
    · by_cases hs : (maxPerpScan pts).1 > eps
      · have hpos : 0 < (maxPerpScan pts).1 := lt_of_le_of_lt heps hs
        obtain ⟨hm1, hmn, _⟩ := maxPerpScan_pos pts hpos
        rw [douglasPeucker_split fuel pts eps hle hs]
        have htlen : (pts.take ((maxPerpScan pts).2 + 1)).length = (maxPerpScan pts).2 + 1 := by
          rw [List.length_take]
          omega
        have htne : pts.take ((maxPerpScan pts).2 + 1) ≠ [] := by
          intro e
          have hlen0 := congrArg List.length e
          rw [htlen] at hlen0
          simp at hlen0
        have hA2 : 2 ≤ (douglasPeucker fuel (pts.take ((maxPerpScan pts).2 + 1)) eps).length := by
          apply douglasPeucker_two_le_length
          rw [htlen]
          omega
        rw [List.head?_append, head?_dropLast_of_two_le _ hA2,
          ih (pts.take ((maxPerpScan pts).2 + 1)) eps heps htne,
          head?_take_pos pts ((maxPerpScan pts).2 + 1) (by omega)]
        cases pts with
        | nil => exact absurd rfl hne
        | cons a t => rfl
      · rw [douglasPeucker_collapse fuel pts eps hle hs]
        cases pts with
        | nil => exact absurd rfl hne
        | cons a t => rfl

theorem douglasPeucker_getLast? (fuel : ℕ) :
    ∀ (pts : List Point) (eps : ℚ), 0 ≤ eps → pts ≠ [] →
      (douglasPeucker fuel pts eps).getLast? = pts.getLast? := by
  induction fuel with
  | zero => intro pts eps _ _; rfl
  | succ fuel ih =>
    intro pts eps heps hne
    by_cases hle : pts.length ≤ 2
    · rw [douglasPeucker_base _ _ _ hle]
    · by_cases hs : (maxPerpScan pts).1 > eps
      · have hpos : 0 < (maxPerpScan pts).1 := lt_of_le_of_lt heps hs
        obtain ⟨hm1, hmn, _⟩ := maxPerpScan_pos pts hpos
        rw [douglasPeucker_split fuel pts eps hle hs]
        have hdne : pts.drop (maxPerpScan pts).2 ≠ [] := by
          intro e
          have hlen0 := congrArg List.length e
          rw [List.length_drop] at hlen0
          simp only [List.length_nil] at hlen0
          omega
        rw [List.getLast?_append,
          ih (pts.drop (maxPerpScan pts).2) eps heps hdne,
          getLast?_drop_eq _ pts (by omega)]
        cases hgl : pts.getLast? with
        | none =>
          rw [List.getLast?_eq_none_iff] at hgl
          exact absurd hgl hne
        | some x => rfl
      · rw [douglasPeucker_collapse fuel pts eps hle hs]
        cases hgl : pts.getLast? with
        | none =>
          rw [List.getLast?_eq_none_iff] at hgl
          exact absurd hgl hne
        | some x => simp [List.getLastD_eq_getLast?, hgl]

/-! The simplifier output is a subsequence of its input. -/

theorem sublist_single {l : List Point} {a : Point} (h : l.Sublist [a]) :
    l = [] ∨ l = [a] := by
  cases h with
  | cons _ h' =>
    left
    exact List.sublist_nil.mp h'
  | cons₂ _ h' =>
    right
    rw [List.sublist_nil.mp h']

theorem pair_sublist (l : List Point) (h : 2 ≤ l.length) :
    [l.headD ptZero, l.getLastD ptZero].Sublist l := by
  cases l with
  | nil => simp at h
  | cons a t =>
    cases t with
    | nil => simp at h
    | cons b t' =>
      refine List.cons_sublist_cons.mpr ?_
      rw [List.singleton_sublist, List.getLastD_eq_getLast?, List.getLast?_cons_cons]
      cases hgl : (b :: t').getLast? with
      | none => simp at hgl
      | some x =>
        simp only [Option.getD_some]
        exact List.mem_of_getLast?_eq_some hgl

/-- The dropped-last-point part of the left recursive call is a subsequence
of `take m`: the left call's list ends exactly at the split point. -/
theorem douglasPeucker_take_dropLast_sublist (fuel : ℕ) (pts : List Point) (eps : ℚ)
    (m : ℕ) (heps : 0 ≤ eps) (hm : m < pts.length)
    (hsub : (douglasPeucker fuel (pts.take (m + 1)) eps).Sublist (pts.take (m + 1))) :
    (douglasPeucker fuel (pts.take (m + 1)) eps).dropLast.Sublist (pts.take m) := by
  have htk : pts.take (m + 1) = pts.take m ++ [pts[m]] := by
    rw [List.take_succ, List.getElem?_eq_getElem hm]
    rfl
  rw [htk] at hsub ⊢
  rcases List.sublist_append_iff.mp hsub with ⟨l1, l2, hael, hl1, hl2⟩
  rcases sublist_single hl2 with rfl | rfl
  · rw [List.append_nil] at hael
    rw [hael]
    exact (List.dropLast_sublist _).trans hl1
  · rw [hael, List.dropLast_concat]
    exact hl1

theorem douglasPeucker_sublist (fuel : ℕ) :
    ∀ (pts : List Point) (eps : ℚ), 0 ≤ eps →
      (douglasPeucker fuel pts eps).Sublist pts := by
  induction fuel with
  | zero => intro pts eps _; exact List.Sublist.refl pts
  | succ fuel ih =>
    intro pts eps heps
    by_cases hle : pts.length ≤ 2
    · rw [douglasPeucker_base _ _ _ hle]
    · by_cases hs : (maxPerpScan pts).1 > eps
      · have hpos : 0 < (maxPerpScan pts).1 := lt_of_le_of_lt heps hs
        obtain ⟨hm1, hmn, _⟩ := maxPerpScan_pos pts hpos
        rw [douglasPeucker_split fuel pts eps hle hs]
        have hddl := douglasPeucker_take_dropLast_sublist fuel pts eps (maxPerpScan pts).2
          heps (by omega) (ih (pts.take ((maxPerpScan pts).2 + 1)) eps heps)
        have hBsub := ih (pts.drop (maxPerpScan pts).2) eps heps
        have happ := List.Sublist.append hddl hBsub
        rw [List.take_append_drop] at happ
        exact happ
      · rw [douglasPeucker_collapse fuel pts eps hle hs]
        exact pair_sublist pts (by omega)

/-! Retained segments of the simplifier output. -/

theorem segPairs_cons_cons (a b : Point) (t : List Point) :
    segPairs (a :: b :: t) = (a, b) :: segPairs (b :: t) := rfl

/-- Gluing two polylines that share their junction point concatenates their
retained segments. -/
theorem segPairs_glue :
    ∀ (l1 : List Point), l1 ≠ [] → ∀ (l2 : List Point), l2 ≠ [] →
      l1.getLast? = l2.head? →
      segPairs (l1.dropLast ++ l2) = segPairs l1 ++ segPairs l2 := by
  intro l1
  induction l1 with
  | nil => intro h; exact absurd rfl h
  | cons a t ih =>
    intro _ l2 h2 hlast
    cases t with
    | nil =>
      cases l2 with
      | nil => exact absurd rfl h2
      | cons c l2' =>
        have hac : a = c := by simpa using hlast
        subst hac
        simp [segPairs]
    | cons b t' =>
      have hlast' : (b :: t').getLast? = l2.head? := by
        rw [← hlast, List.getLast?_cons_cons]
      have ih' := ih (by simp) l2 h2 hlast'
      cases t' with
      | nil =>
        cases l2 with
        | nil => exact absurd rfl h2
        | cons c l2' =>
          have hbc : b = c := by simpa using hlast'
          subst hbc
          rfl
      | cons d t'' =>
        show segPairs (a :: b :: (List.dropLast (d :: t'') ++ l2))
            = ((a, b) :: segPairs (b :: d :: t'')) ++ segPairs l2
        rw [segPairs_cons_cons]
        show (a, b) :: segPairs (b :: (List.dropLast (d :: t'') ++ l2))
            = (a, b) :: (segPairs (b :: d :: t'') ++ segPairs l2)
        congr 1

/-- Douglas-Peucker deviation bound: every input point lies within the
(squared) tolerance of some retained segment of the output. -/
theorem douglasPeucker_within (fuel : ℕ) :
    ∀ (pts : List Point) (eps : ℚ), 0 ≤ eps → 2 ≤ pts.length → pts.length ≤ fuel →
      ∀ p ∈ pts, ∃ pr ∈ segPairs (douglasPeucker fuel pts eps),
        perpendicularDistance p pr.1 pr.2 ≤ eps := by
  induction fuel with
  | zero => intro pts eps _ h2 hf _ _; omega
  | succ fuel ih =>
    intro pts eps heps h2 hf p hp
    by_cases hle : pts.length ≤ 2
    · rw [douglasPeucker_base _ _ _ hle]
      cases pts with
      | nil => simp at h2
      | cons a t =>
        cases t with
        | nil => simp at h2
        | cons b t' =>
          have ht' : t' = [] := by
            cases t' with
            | nil => rfl
            | cons c t'' => simp at hle
          subst ht'
          rcases List.mem_cons.mp hp with rfl | hp'
          · exact ⟨(p, b), by simp [segPairs], by
              rw [perpendicularDistance_self_left]; exact heps⟩
          · rcases List.mem_cons.mp hp' with rfl | hp''
            · exact ⟨(a, p), by simp [segPairs], by
                rw [perpendicularDistance_self_right]; exact heps⟩
            · cases hp''
    · by_cases hs : (maxPerpScan pts).1 > eps
      · have hpos : 0 < (maxPerpScan pts).1 := lt_of_le_of_lt heps hs
        obtain ⟨hm1, hmn, _⟩ := maxPerpScan_pos pts hpos
        rw [douglasPeucker_split fuel pts eps hle hs]
        have htlen : (pts.take ((maxPerpScan pts).2 + 1)).length = (maxPerpScan pts).2 + 1 := by
          rw [List.length_take]; omega
        have hdlen : (pts.drop (maxPerpScan pts).2).length = pts.length - (maxPerpScan pts).2 :=
          List.length_drop ..
        have htne : pts.take ((maxPerpScan pts).2 + 1) ≠ [] := by
          intro e
          have h0 := congrArg List.length e
          rw [htlen] at h0
          simp at h0
        have hdne : pts.drop (maxPerpScan pts).2 ≠ [] := by
          intro e
          have h0 := congrArg List.length e
          rw [hdlen] at h0
          simp only [List.length_nil] at h0
          omega
        have hA2 : 2 ≤ (douglasPeucker fuel (pts.take ((maxPerpScan pts).2 + 1)) eps).length := by
          apply douglasPeucker_two_le_length
          rw [htlen]; omega
        have hB2 : 2 ≤ (douglasPeucker fuel (pts.drop (maxPerpScan pts).2) eps).length := by
          apply douglasPeucker_two_le_length
          rw [hdlen]; omega
        have hAne : douglasPeucker fuel (pts.take ((maxPerpScan pts).2 + 1)) eps ≠ [] := by
          intro e; rw [e] at hA2; simp at hA2
        have hBne : douglasPeucker fuel (pts.drop (maxPerpScan pts).2) eps ≠ [] := by
          intro e; rw [e] at hB2; simp at hB2
        have hm_lt : (maxPerpScan pts).2 < pts.length := by omega
        have hAlast : (douglasPeucker fuel (pts.take ((maxPerpScan pts).2 + 1)) eps).getLast?
            = some pts[(maxPerpScan pts).2] := by
          rw [douglasPeucker_getLast? fuel _ eps heps htne,
            getLast?_take_succ pts (maxPerpScan pts).2 hm_lt]
        have hBhead : (douglasPeucker fuel (pts.drop (maxPerpScan pts).2) eps).head?
            = some pts[(maxPerpScan pts).2] := by
          rw [douglasPeucker_head? fuel _ eps heps hdne,
            head?_drop_eq pts (maxPerpScan pts).2 hm_lt]
        have hglue : segPairs ((douglasPeucker fuel (pts.take ((maxPerpScan pts).2 + 1)) eps).dropLast
              ++ douglasPeucker fuel (pts.drop (maxPerpScan pts).2) eps)
            = segPairs (douglasPeucker fuel (pts.take ((maxPerpScan pts).2 + 1)) eps)
              ++ segPairs (douglasPeucker fuel (pts.drop (maxPerpScan pts).2) eps) := by
          apply segPairs_glue _ hAne _ hBne
          rw [hAlast, hBhead]
        rw [hglue]
        have hsplit_p : p ∈ pts.take ((maxPerpScan pts).2 + 1)
            ∨ p ∈ pts.drop (maxPerpScan pts).2 := by
          have hta := List.take_append_drop ((maxPerpScan pts).2 + 1) pts
          rw [← hta] at hp
          rcases List.mem_append.mp hp with h | h
          · exact Or.inl h
          · right
            rw [List.drop_eq_getElem_cons hm_lt]
            exact List.mem_cons_of_mem _ h
        rcases hsplit_p with hmem | hmem
        · obtain ⟨pr, hpr, hd⟩ := ih (pts.take ((maxPerpScan pts).2 + 1)) eps heps
            (by rw [htlen]; omega) (by rw [htlen]; omega) p hmem
          exact ⟨pr, List.mem_append_left _ hpr, hd⟩
        · obtain ⟨pr, hpr, hd⟩ := ih (pts.drop (maxPerpScan pts).2) eps heps
            (by rw [hdlen]; omega) (by rw [hdlen]; omega) p hmem
          exact ⟨pr, List.mem_append_right _ hpr, hd⟩
      · rw [douglasPeucker_collapse fuel pts eps hle hs]
        refine ⟨(pts.headD ptZero, pts.getLastD ptZero), by simp [segPairs], ?_⟩
        exact le_trans (perp_le_scan pts p hp) (not_lt.mp hs)

/-- C8: for nonnegative (squared) tolerance, the simplifier returns inputs of
at most two points unchanged; on longer inputs it returns a subsequence that
keeps the first and last point, and every input point lies within the
tolerance of some retained segment of the output. -/
theorem C8_simplifier_guarantees (pts : List Point) (t : ℚ) (ht : 0 ≤ t) :
    (pts.length ≤ 2 → simplifyPath pts t = pts)
    ∧ (2 ≤ pts.length →
        (simplifyPath pts t).Sublist pts
        ∧ (simplifyPath pts t).head? = pts.head?
        ∧ (simplifyPath pts t).getLast? = pts.getLast?
        ∧ ∀ p ∈ pts, ∃ pr ∈ segPairs (simplifyPath pts t),
            perpendicularDistance p pr.1 pr.2 ≤ t) := by
  constructor
  · intro h
    simp [simplifyPath, h]
  · intro h2
    have hne : pts ≠ [] := by
      intro e; rw [e] at h2; simp at h2
    by_cases hle : pts.length ≤ 2
    · have heq : simplifyPath pts t = pts := by simp [simplifyPath, hle]
      rw [heq]
      refine ⟨List.Sublist.refl pts, rfl, rfl, ?_⟩
      have hw := douglasPeucker_within pts.length pts t ht h2 (le_refl _)
      rw [douglasPeucker_base _ _ _ hle] at hw
      exact hw
    · have heq : simplifyPath pts t = douglasPeucker pts.length pts t := by
        simp [simplifyPath, hle]
      rw [heq]
      exact ⟨douglasPeucker_sublist _ _ _ ht, douglasPeucker_head? _ _ _ ht hne,
        douglasPeucker_getLast? _ _ _ ht hne, douglasPeucker_within _ _ _ ht h2 (le_refl _)⟩

/-- Witness for C8 at the spec's scenario input and tolerance 1. -/
theorem C8_simplifier_guarantees_witness :
    (([((0 : ℚ), (0 : ℚ)), (1, 1/10), (2, -1/10), (3, 0)] : List Point).length ≤ 2 →
        simplifyPath [((0 : ℚ), (0 : ℚ)), (1, 1/10), (2, -1/10), (3, 0)] 1
          = [((0 : ℚ), (0 : ℚ)), (1, 1/10), (2, -1/10), (3, 0)])
    ∧ (2 ≤ ([((0 : ℚ), (0 : ℚ)), (1, 1/10), (2, -1/10), (3, 0)] : List Point).length →
        (simplifyPath [((0 : ℚ), (0 : ℚ)), (1, 1/10), (2, -1/10), (3, 0)] 1).Sublist
            [((0 : ℚ), (0 : ℚ)), (1, 1/10), (2, -1/10), (3, 0)]
        ∧ (simplifyPath [((0 : ℚ), (0 : ℚ)), (1, 1/10), (2, -1/10), (3, 0)] 1).head?
            = ([((0 : ℚ), (0 : ℚ)), (1, 1/10), (2, -1/10), (3, 0)] : List Point).head?
        ∧ (simplifyPath [((0 : ℚ), (0 : ℚ)), (1, 1/10), (2, -1/10), (3, 0)] 1).getLast?
            = ([((0 : ℚ), (0 : ℚ)), (1, 1/10), (2, -1/10), (3, 0)] : List Point).getLast?
        ∧ ∀ p ∈ ([((0 : ℚ), (0 : ℚ)), (1, 1/10), (2, -1/10), (3, 0)] : List Point),
            ∃ pr ∈ segPairs (simplifyPath [((0 : ℚ), (0 : ℚ)), (1, 1/10), (2, -1/10), (3, 0)] 1),
              perpendicularDistance p pr.1 pr.2 ≤ 1) :=
  C8_simplifier_guarantees _ 1 (by norm_num)

/-! Idempotence of the simplifier. -/

/-- The fuel is irrelevant once it covers the list length (for nonnegative
tolerance the recursion always strictly shrinks the list). -/
theorem douglasPeucker_fuel_congr :
    ∀ (f1 : ℕ) (pts : List Point) (eps : ℚ) (f2 : ℕ), 0 ≤ eps →
      pts.length ≤ f1 → pts.length ≤ f2 →
      douglasPeucker f1 pts eps = douglasPeucker f2 pts eps := by
  intro f1
  induction f1 with
  | zero =>
    intro pts eps f2 _ h1 _
    have h2 : pts.length ≤ 2 := by omega
    rw [douglasPeucker_base 0 _ _ h2, douglasPeucker_base f2 _ _ h2]
  | succ f1 ih =>
    intro pts eps f2 heps h1 h2
    by_cases hle : pts.length ≤ 2
    · rw [douglasPeucker_base _ _ _ hle, douglasPeucker_base f2 _ _ hle]
    · cases f2 with
      | zero => omega
      | succ f2' =>
        by_cases hs : (maxPerpScan pts).1 > eps
        · have hpos : 0 < (maxPerpScan pts).1 := lt_of_le_of_lt heps hs
          obtain ⟨hm1, hmn, _⟩ := maxPerpScan_pos pts hpos
          rw [douglasPeucker_split f1 pts eps hle hs, douglasPeucker_split f2' pts eps hle hs]
          have htlen : (pts.take ((maxPerpScan pts).2 + 1)).length
              = (maxPerpScan pts).2 + 1 := by
            rw [List.length_take]; omega
          rw [ih (pts.take ((maxPerpScan pts).2 + 1)) eps f2' heps (by rw [htlen]; omega)
              (by rw [htlen]; omega),
            ih (pts.drop (maxPerpScan pts).2) eps f2' heps (by rw [List.length_drop]; omega)
              (by rw [List.length_drop]; omega)]
        · rw [douglasPeucker_collapse f1 pts eps hle hs,
            douglasPeucker_collapse f2' pts eps hle hs]

/-- Core idempotence: re-running Douglas-Peucker on its own output changes
nothing.  In the split case the re-scan of the output finds the same maximum
point at its new position, so the recursion splits along the same chord. -/
theorem douglasPeucker_idem (fuel : ℕ) :
    ∀ (pts : List Point) (eps : ℚ), 0 ≤ eps → pts.length ≤ fuel →
      douglasPeucker fuel (douglasPeucker fuel pts eps) eps
        = douglasPeucker fuel pts eps := by
  induction fuel with
  | zero => intro pts eps _ _; rfl
  | succ fuel ih =>
    intro pts eps heps hf
    by_cases hle : pts.length ≤ 2
    · rw [douglasPeucker_base _ _ _ hle, douglasPeucker_base _ _ _ hle]
    · by_cases hs : (maxPerpScan pts).1 > eps
      · have hpos : 0 < (maxPerpScan pts).1 := lt_of_le_of_lt heps hs
        obtain ⟨hm1, hmn, hfst⟩ := maxPerpScan_pos pts hpos
        have hm_lt : (maxPerpScan pts).2 < pts.length := by omega
        have htlen : (pts.take ((maxPerpScan pts).2 + 1)).length
            = (maxPerpScan pts).2 + 1 := by
          rw [List.length_take]; omega
        have hdlen : (pts.drop (maxPerpScan pts).2).length
            = pts.length - (maxPerpScan pts).2 := List.length_drop ..
        have htfuel : (pts.take ((maxPerpScan pts).2 + 1)).length ≤ fuel := by
          rw [htlen]; omega
        have hdfuel : (pts.drop (maxPerpScan pts).2).length ≤ fuel := by
          rw [hdlen]; omega
        have htne : pts.take ((maxPerpScan pts).2 + 1) ≠ [] := by
          intro e
          have h0 := congrArg List.length e
          rw [htlen] at h0
          simp at h0
        have hdne : pts.drop (maxPerpScan pts).2 ≠ [] := by
          intro e
          have h0 := congrArg List.length e
          rw [hdlen] at h0
          simp only [List.length_nil] at h0
          omega
        have hdd := douglasPeucker_take_dropLast_sublist fuel pts eps (maxPerpScan pts).2
          heps hm_lt (douglasPeucker_sublist fuel (pts.take ((maxPerpScan pts).2 + 1)) eps heps)
        rw [douglasPeucker_split fuel pts eps hle hs]
        set A := douglasPeucker fuel (pts.take ((maxPerpScan pts).2 + 1)) eps with hA
        set B := douglasPeucker fuel (pts.drop (maxPerpScan pts).2) eps with hB
        have hA2 : 2 ≤ A.length := by
          rw [hA]
          apply douglasPeucker_two_le_length
          rw [htlen]; omega
        have hB2 : 2 ≤ B.length := by
          rw [hB]
          apply douglasPeucker_two_le_length
          rw [hdlen]; omega
        have hAlast : A.getLast? = some pts[(maxPerpScan pts).2] := by
          rw [hA, douglasPeucker_getLast? fuel _ eps heps htne,
            getLast?_take_succ pts _ hm_lt]
        have hBhead : B.head? = some pts[(maxPerpScan pts).2] := by
          rw [hB, douglasPeucker_head? fuel _ eps heps hdne, head?_drop_eq pts _ hm_lt]
        have hAhead : A.head? = pts.head? := by
          rw [hA, douglasPeucker_head? fuel _ eps heps htne,
            head?_take_pos pts _ (by omega)]
        have hBlast : B.getLast? = pts.getLast? := by
          rw [hB, douglasPeucker_getLast? fuel _ eps heps hdne,
            getLast?_drop_eq _ pts hm_lt]
        have hRlen : (A.dropLast ++ B).length = A.length - 1 + B.length := by
          rw [List.length_append, List.length_dropLast]
        have hR3 : ¬ (A.dropLast ++ B).length ≤ 2 := by
          rw [hRlen]; omega
        have hptsne : pts ≠ [] := by
          intro e
          rw [e] at hle
          simp at hle
        have hRhead : (A.dropLast ++ B).head? = pts.head? := by
          rw [List.head?_append, head?_dropLast_of_two_le A hA2, hAhead]
          cases pts with
          | nil => exact absurd rfl hptsne
          | cons a t => rfl
        have hRlast : (A.dropLast ++ B).getLast? = pts.getLast? := by
          rw [List.getLast?_append, hBlast]
          cases hgl : pts.getLast? with
          | none =>
            rw [List.getLast?_eq_none_iff] at hgl
            exact absurd hgl hptsne
          | some x => rfl
        have hRheadD : (A.dropLast ++ B).headD ptZero = pts.headD ptZero := by
          rw [List.headD_eq_head?_getD, List.headD_eq_head?_getD, hRhead]
        have hRlastD : (A.dropLast ++ B).getLastD ptZero = pts.getLastD ptZero := by
          rw [List.getLastD_eq_getLast?, List.getLastD_eq_getLast?, hRlast]
        have hchordR : ∀ i, chordDist (A.dropLast ++ B) i
            = perpendicularDistance ((A.dropLast ++ B).getD i ptZero)
                (pts.headD ptZero) (pts.getLastD ptZero) := by
          intro i
          simp only [chordDist]
          rw [hRheadD, hRlastD]
        have hgetm : (A.dropLast ++ B).getD (A.length - 1) ptZero
            = pts[(maxPerpScan pts).2] := by
          rw [List.getD_eq_getElem?_getD,
            List.getElem?_append_right (le_of_eq (by rw [List.length_dropLast]))]
          rw [List.length_dropLast]
          have h00 : A.length - 1 - (A.length - 1) = 0 := by omega
          rw [h00, ← List.head?_eq_getElem?, hBhead]
          rfl
        have hmemA : ∀ i, i < A.length - 1 →
            (A.dropLast ++ B).getD i ptZero ∈ pts.take (maxPerpScan pts).2 := by
          intro i hi
          have hi' : i < A.dropLast.length := by
            rw [List.length_dropLast]; omega
          rw [List.getD_eq_getElem?_getD, List.getElem?_append_left hi',
            List.getElem?_eq_getElem hi']
          simp only [Option.getD_some]
          exact hdd.subset (List.getElem_mem hi')
        have hstrict : ∀ v ∈ pts.take (maxPerpScan pts).2,
            perpendicularDistance v (pts.headD ptZero) (pts.getLastD ptZero)
              < (maxPerpScan pts).1 := by
          intro v hv
          obtain ⟨i', hi'lt, hvi⟩ := List.getElem_of_mem hv
          have hi'm : i' < (maxPerpScan pts).2 := by
            have h0 := hi'lt
            rw [List.length_take] at h0
            omega
          have hi'pts : i' < pts.length := by omega
          have hv' : pts[i'] = v := by
            have h1 : (pts.take (maxPerpScan pts).2)[i']? = pts[i']? :=
              List.getElem?_take_of_lt hi'm
            rw [List.getElem?_eq_getElem hi'lt, List.getElem?_eq_getElem hi'pts] at h1
            injection h1 with h1
            rw [← h1]
            exact hvi
          by_cases h0 : i' = 0
          · subst h0
            rw [← hv', ← headD_eq_getElem pts (by omega), perpendicularDistance_self_left]
            exact hpos
          · have hlt := maxPerpScan_before_lt pts i' (by omega) hi'm
            rw [chordDist_eq_perp pts i' hi'pts] at hlt
            rw [← hv']
            exact hlt
        have hRsub : (A.dropLast ++ B).Sublist pts := by
          have h0 := douglasPeucker_sublist (fuel + 1) pts eps heps
          rw [douglasPeucker_split fuel pts eps hle hs] at h0
          exact h0
        have hscanR : maxPerpScan (A.dropLast ++ B)
            = (chordDist (A.dropLast ++ B) (A.length - 1), A.length - 1) := by
          apply maxPerpScan_eq (A.dropLast ++ B) (A.length - 1) (by omega)
            (by rw [hRlen]; omega)
          · rw [hchordR, hgetm, ← chordDist_eq_perp pts _ hm_lt, ← hfst]
            exact hpos
          · intro i hi1 hiL
            rw [hchordR, hchordR, hgetm, ← chordDist_eq_perp pts _ hm_lt, ← hfst]
            exact hstrict _ (hmemA i hiL)
          · intro i hiL hiR
            rw [hchordR, hchordR, hgetm, ← chordDist_eq_perp pts _ hm_lt, ← hfst]
            have hiRlen : i < (A.dropLast ++ B).length := by omega
            rw [List.getD_eq_getElem?_getD, List.getElem?_eq_getElem hiRlen]
            simp only [Option.getD_some]
            exact perp_le_scan pts _ (hRsub.subset (List.getElem_mem hiRlen))
        have hsgt : (maxPerpScan (A.dropLast ++ B)).1 > eps := by
          rw [hscanR]
          show chordDist (A.dropLast ++ B) (A.length - 1) > eps
          rw [hchordR, hgetm, ← chordDist_eq_perp pts _ hm_lt, ← hfst]
          exact hs
        rw [douglasPeucker_split fuel (A.dropLast ++ B) eps hR3 hsgt]
        have hsnd : (maxPerpScan (A.dropLast ++ B)).2 = A.length - 1 := by
          rw [hscanR]
        rw [hsnd]
        have hAne : A ≠ [] := by
          intro e
          rw [e] at hA2
          simp at hA2
        have htake : (A.dropLast ++ B).take (A.length - 1 + 1) = A := by
          have h1 : A.length - 1 + 1 = A.dropLast.length + 1 := by
            rw [List.length_dropLast]
          rw [h1, List.take_append_eq_append_take,
            List.take_of_length_le (by omega : A.dropLast.length ≤ A.dropLast.length + 1)]
          have h2 : A.dropLast.length + 1 - A.dropLast.length = 1 := by omega
          rw [h2]
          cases hBc : B with
          | nil =>
            rw [hBc] at hBhead
            simp at hBhead
          | cons b bt =>
            rw [hBc] at hBhead
            have hb : b = pts[(maxPerpScan pts).2] := by
              simpa using hBhead
            subst hb
            rw [List.take_succ_cons, List.take_zero]
            have h3 := List.dropLast_concat_getLast hAne
            have h4 : A.getLast hAne = pts[(maxPerpScan pts).2] := by
              have h5 := List.getLast?_eq_getLast A hAne
              rw [hAlast] at h5
              injection h5 with h5
              rw [h5]
            rw [← h4]
            exact h3
        have hdrop : (A.dropLast ++ B).drop (A.length - 1) = B := by
          have h1 : A.length - 1 = A.dropLast.length := by
            rw [List.length_dropLast]
          rw [h1, List.drop_left]
        rw [htake, hdrop]
        have hAidem : douglasPeucker fuel A eps = A := by
          rw [hA]
          exact ih (pts.take ((maxPerpScan pts).2 + 1)) eps heps htfuel
        have hBidem : douglasPeucker fuel B eps = B := by
          rw [hB]
          exact ih (pts.drop (maxPerpScan pts).2) eps heps hdfuel
        rw [hAidem, hBidem]
      · rw [douglasPeucker_collapse fuel pts eps hle hs]
        exact douglasPeucker_base _ _ _ (by simp)

/-- C7: simplifying twice equals simplifying once, for every nonnegative
(squared) tolerance. -/
theorem C7_simplify_idem (pts : List Point) (t : ℚ) (ht : 0 ≤ t) :
    simplifyPath (simplifyPath pts t) t = simplifyPath pts t := by
  by_cases h : pts.length ≤ 2
  · simp [simplifyPath, h]
  · have heq : simplifyPath pts t = douglasPeucker pts.length pts t := by
      simp [simplifyPath, h]
    rw [heq]
    have hRle : (douglasPeucker pts.length pts t).length ≤ pts.length :=
      douglasPeucker_length_le _ _ _
    by_cases h2 : (douglasPeucker pts.length pts t).length ≤ 2
    · simp [simplifyPath, h2]
    · have heq2 : simplifyPath (douglasPeucker pts.length pts t) t
          = douglasPeucker (douglasPeucker pts.length pts t).length
              (douglasPeucker pts.length pts t) t := by
        simp [simplifyPath, h2]
      rw [heq2,
        douglasPeucker_fuel_congr (douglasPeucker pts.length pts t).length
          (douglasPeucker pts.length pts t) t pts.length ht (le_refl _) hRle]
      exact douglasPeucker_idem pts.length pts t ht (le_refl _)

/-- Witness for C7 at the spec's scenario input and tolerance 1. -/
theorem C7_simplify_idem_witness :
    simplifyPath (simplifyPath [((0 : ℚ), (0 : ℚ)), (1, 1/10), (2, -1/10), (3, 0)] 1) 1
      = simplifyPath [((0 : ℚ), (0 : ℚ)), (1, 1/10), (2, -1/10), (3, 0)] 1 :=
  C7_simplify_idem _ 1 (by norm_num)

/-! Point-count bounds of the confirmed merge. -/

theorem simplifyPath_length_le (pts : List Point) (t : ℚ) :
    (simplifyPath pts t).length ≤ pts.length := by
  by_cases h : pts.length ≤ 2
  · simp [simplifyPath, h]
  · unfold simplifyPath
    rw [if_neg h]
    exact douglasPeucker_length_le _ _ _

theorem simplifyPath_min_le (pts : List Point) (t : ℚ) :
    Nat.min pts.length 2 ≤ (simplifyPath pts t).length := by
  by_cases h : pts.length ≤ 2
  · unfold simplifyPath
    rw [if_pos h]
    exact Nat.min_le_left _ _
  · unfold simplifyPath
    rw [if_neg h]
    have h2 := douglasPeucker_two_le_length pts.length pts t (by omega)
    have hm : Nat.min pts.length 2 = 2 := Nat.min_eq_right (by omega)
    rw [hm]
    exact h2

theorem countP_isSome_map_some (l : List Point) :
    ((l.map some).countP fun o => o.isSome) = l.length := by
  rw [List.countP_map]
  simp [Function.comp]

theorem countP_isNone_map_some (l : List Point) :
    ((l.map some).countP fun o => o.isNone) = 0 := by
  rw [List.countP_map]
  simp [Function.comp]

theorem mergeStep_cases (merged : List (Option Point)) (pts : List Point) :
    mergeStep merged pts = merged ++ pts.map some
      ∨ mergeStep merged pts = merged ++ [none] ++ pts.map some := by
  simp only [mergeStep]
  by_cases he : merged.isEmpty
  · rw [if_pos he]
    left
    rw [List.isEmpty_iff.mp he]
    rfl
  · rw [if_neg he]
    cases hl : (merged.reverse.find? Option.isSome).join with
    | none =>
      cases hf : pts.head? with
      | none => right; rfl
      | some fp => right; rfl
    | some lp =>
      cases hf : pts.head? with
      | none => right; rfl
      | some fp =>
        by_cases hd : hypotSq lp fp > 1
        · right
          show (if hypotSq lp fp > 1 then merged ++ [none] ++ List.map some pts
              else merged ++ List.map some pts) = merged ++ [none] ++ List.map some pts
          rw [if_pos hd]
        · left
          show (if hypotSq lp fp > 1 then merged ++ [none] ++ List.map some pts
              else merged ++ List.map some pts) = merged ++ List.map some pts
          rw [if_neg hd]

theorem mergeStep_counts (merged : List (Option Point)) (pts : List Point) :
    ((mergeStep merged pts).countP fun o => o.isSome)
        = (merged.countP fun o => o.isSome) + pts.length
    ∧ ((mergeStep merged pts).countP fun o => o.isNone)
        ≤ (merged.countP fun o => o.isNone) + 1 := by
  rcases mergeStep_cases merged pts with h | h <;> rw [h]
  · constructor
    · rw [List.countP_append, countP_isSome_map_some]
    · rw [List.countP_append, countP_isNone_map_some]
      omega
  · constructor
    · rw [List.countP_append, List.countP_append, countP_isSome_map_some]
      simp [List.countP_cons]
    · rw [List.countP_append, List.countP_append, countP_isNone_map_some]
      simp [List.countP_cons]

theorem mergeFold_counts :
    ∀ (ls : List (List Point)) (acc : List (Option Point)),
      ((ls.foldl mergeStep acc).countP fun o => o.isSome)
          = (acc.countP fun o => o.isSome) + (ls.map List.length).sum
      ∧ ((ls.foldl mergeStep acc).countP fun o => o.isNone)
          ≤ (acc.countP fun o => o.isNone) + ls.length := by
  intro ls
  induction ls with
  | nil =>
    intro acc
    constructor
    · simp
    · simp
  | cons p ls ih =>
    intro acc
    rw [List.foldl_cons]
    obtain ⟨ih1, ih2⟩ := ih (mergeStep acc p)
    obtain ⟨hs1, hs2⟩ := mergeStep_counts acc p
    constructor
    · rw [ih1, hs1, List.map_cons, List.sum_cons]
      omega
    · rw [List.length_cons]
      omega

theorem mergeFold_none_init (ls : List (List Point)) :
    ((ls.foldl mergeStep []).countP fun o => o.isNone) ≤ ls.length - 1 := by
  cases ls with
  | nil => simp
  | cons p ls =>
    rw [List.foldl_cons]
    have h0 : mergeStep ([] : List (Option Point)) p = p.map some := by
      simp [mergeStep]
    rw [h0]
    have h2 := (mergeFold_counts ls (p.map some)).2
    rw [countP_isNone_map_some] at h2
    rw [List.length_cons]
    omega

theorem length_eq_some_add_none (l : List (Option Point)) :
    l.length = (l.countP fun o => o.isSome) + (l.countP fun o => o.isNone) := by
  induction l with
  | nil => rfl
  | cons o l ih =>
    cases o with
    | none =>
      simp [List.countP_cons, ih]
      omega
    | some x =>
      simp [List.countP_cons, ih]
      omega

theorem sum_map_le_sum_map (ls : List (List Point)) (f g : List Point → ℕ)
    (h : ∀ x ∈ ls, f x ≤ g x) : (ls.map f).sum ≤ (ls.map g).sum := by
  induction ls with
  | nil => simp
  | cons a ls ih =>
    simp only [List.map_cons, List.sum_cons]
    have ha := h a (List.mem_cons_self a ls)
    have hls := ih (fun x hx => h x (List.mem_cons_of_mem a hx))
    omega

/-- C4 amended: a confirmed merge of `k` point lists with counts `n1..nk`
first simplifies each list, so the merged list has between `sum(min(ni, 2))`
and `sum(ni) + (k - 1)` entries; at most `k - 1` entries are pen-lift
markers, and the non-marker entries number at most `sum(ni)`. -/
theorem C4_merge_point_count (lists : List (List Point)) :
    (lists.map fun l => Nat.min l.length 2).sum ≤ (mergeConfirmed lists).length
    ∧ (mergeConfirmed lists).length ≤ (lists.map List.length).sum + (lists.length - 1)
    ∧ ((mergeConfirmed lists).countP fun o => o.isNone) ≤ lists.length - 1
    ∧ ((mergeConfirmed lists).countP fun o => o.isSome) ≤ (lists.map List.length).sum := by
  unfold mergeConfirmed
  set simplified := lists.map fun ps => simplifyPath ps 1 with hsimp
  obtain ⟨hc1, _⟩ := mergeFold_counts simplified []
  have hc2 := mergeFold_none_init simplified
  rw [List.countP_nil, Nat.zero_add] at hc1
  have hlen := length_eq_some_add_none (simplified.foldl mergeStep [])
  have hslen : simplified.length = lists.length := by
    rw [hsimp, List.length_map]
  have hsum_le : (simplified.map List.length).sum ≤ (lists.map List.length).sum := by
    rw [hsimp, List.map_map]
    apply sum_map_le_sum_map
    intro x _
    exact simplifyPath_length_le x 1
  have hsum_ge : (lists.map fun l => Nat.min l.length 2).sum
      ≤ (simplified.map List.length).sum := by
    rw [hsimp, List.map_map]
    apply sum_map_le_sum_map
    intro x _
    exact simplifyPath_min_le x 1
  refine ⟨by omega, by omega, by omega, by omega⟩
